import Mathlib

/-!
Verification of the gym-tracker application core (src/app.py).

The Google-Sheets worksheets are modelled as ordinary Lean lists of rows
(the header row of the sheet is left implicit: every Python loop in the
source skips it with `all_values[1:]`).  The `json.dumps` / `json.loads`
calls from the Python standard library are external collaborators; the
operations that use them are parameterised over the serialisation
(`dumps`) and deserialisation (`parse`) functions.  Dates appearing as
keys of a per-user history are interpreted as proleptic-Gregorian day
ordinals (`dateOrd`), which is faithful because the source only ever
formats dates with `strftime("%Y-%m-%d")`, a strictly monotone encoding,
and parses them back with the inverse `strptime`.
-/

namespace GymTracker

/-- One exercise line of a workout log: `{name, sets, reps, weight}`.
`weight` is only ever stored (default `10.0`), never computed with, so it
is modelled exactly as a rational number. -/
structure ExerciseEntry where
  name : String
  sets : Nat
  reps : Nat
  weight : ℚ
deriving DecidableEq, Repr

/-- The four fixed workout templates of `TEMPLATES` in src/app.py. -/
def TEMPLATES : List (String × List String) :=
  [("Anterior A", ["Incline Chest Press (DB)", "Butterfly", "Lateral Raises (Cable)",
      "Overhead Extension", "Rope Pushdown", "Hack Squat", "Leg Extension", "Crunches"]),
   ("Anterior B", ["Flat Chest Press", "Incline Chest Press (Mach)", "Lateral Raises (Cable)",
      "Overhead Extension", "Rope Pushdown", "Hack Squat", "Leg Extension", "Crunches"]),
   ("Posterior A", ["Lat Pulldown", "Seated Row", "T-Bar Row", "Preacher Curl",
      "Hammer Curl", "Wrist Curl", "Back Delts", "RDL", "Leg Curls"]),
   ("Posterior B", ["Lat Pulldown", "Seated Row", "T-Bar Row", "Incline Bi Curl",
      "Hammer Curl", "Reverse Curls", "Back Delts", "RDL", "Leg Curls"])]

/-- Template instantiation, from the main-app branch
`exs = [{"name": n, "sets": 3, "reps": 10, "weight": 10.0} for n in TEMPLATES[split]]`
(src/app.py line 266).  An unknown template name yields the empty list. -/
def apply_template (split : String) : List ExerciseEntry :=
  ((TEMPLATES.lookup split).getD []).map (fun n => ⟨n, 3, 10, 10⟩)

/-- The in-memory shape of one day's log as built by `get_user_history`:
`{"type": ..., "exercises": ...}`. -/
structure DayLog where
  typ : String
  exercises : List ExerciseEntry
deriving DecidableEq, Repr

/-- The payload of the `Mark Rest` action (src/app.py line 259):
`save_log_to_sheet(user, d_str, "Rest", [])` — the only creation site of a
Rest log. -/
def rest_day_log : DayLog := { typ := "Rest", exercises := [] }

/-- One data row of the `Logs` worksheet: `[username, date, type, json_data]`. -/
structure LogRow where
  username : String
  date : String
  typ : String
  data : String
deriving DecidableEq, Repr

/-- The row-matching test of `save_log_to_sheet` / `delete_log_from_sheet`:
`row[0] == username and str(row[1]) == date_str`. -/
def rowKeyMatches (u d : String) (r : LogRow) : Bool :=
  r.username == u && r.date == d

/-- Number of rows of the sheet carrying the key `(u, d)`. -/
def countKey (u d : String) (rows : List LogRow) : Nat :=
  (rows.filter (rowKeyMatches u d)).length

/-- Scan for the first row whose key is `(u, d)` and delete it; leave the
sheet unchanged when no row matches.  This is the

    for i, row in enumerate(all_values[1:], start=2):
        if row[0] == username and str(row[1]) == date_str: ... delete ... break/return

loop shared by `save_log_to_sheet` and `delete_log_from_sheet`. -/
def deleteFirstKey (u d : String) : List LogRow → List LogRow
  | [] => []
  | r :: rs => if rowKeyMatches u d r then rs else r :: deleteFirstKey u d rs

/-- `save_log_to_sheet` (src/app.py lines 87–112): delete the first row for
`(username, date_str)` if one exists, then append
`[username, date_str, log_type, json.dumps(exercises)]`.  The unused
`ws.find(username)` lookup on line 92 has no effect on the sheet and is not
modelled.  `dumps` stands for `json.dumps`. -/
def save_log_to_sheet (dumps : List ExerciseEntry → String)
    (username date_str log_type : String) (exercises : List ExerciseEntry)
    (rows : List LogRow) : List LogRow :=
  deleteFirstKey username date_str rows ++ [⟨username, date_str, log_type, dumps exercises⟩]

/-- `delete_log_from_sheet` (src/app.py lines 114–122): delete the first row
for `(username, date_str)`; return without error when none matches. -/
def delete_log_from_sheet (username date_str : String) (rows : List LogRow) : List LogRow :=
  deleteFirstKey username date_str rows

/-- Python dict update `user_counts[u] = user_counts.get(u, 0) + 1` on a dict
kept as an insertion-ordered association list: bump the value in place when
the key exists, append `(u, 1)` otherwise. -/
def dictIncr (u : String) : List (String × Nat) → List (String × Nat)
  | [] => [(u, 1)]
  | (k, v) :: rest => if k == u then (k, v + 1) :: rest else (k, v) :: dictIncr u rest

/-- One leaderboard entry `{"User": k, "Days": v}`. -/
structure LBEntry where
  user : String
  days : Nat
deriving DecidableEq, Repr

/-- The `user_counts` dict of `get_leaderboard_data` (src/app.py lines
125–133): count, user by user in encounter order, the rows whose type is not
`"Rest"`. -/
def user_counts (rows : List LogRow) : List (String × Nat) :=
  rows.foldl (fun acc r => if r.typ != "Rest" then dictIncr r.username acc else acc) []

/-- The pre-sort leaderboard list
`[{"User": k, "Days": v} for k, v in user_counts.items()]`, in first-encounter
order of the users. -/
def lbUnsorted (rows : List LogRow) : List LBEntry :=
  (user_counts rows).map (fun kv => ⟨kv.1, kv.2⟩)

/-- Insert an entry in front of the first entry with a count not larger than
its own.  Together with `sortDesc` this is the unique stable descending sort
by `Days`, hence the model of
`sorted(leaderboard, key=lambda x: x["Days"], reverse=True)` (Python's sort
is stable, and a stable sort under a fixed key is unique). -/
def insertDesc (x : LBEntry) : List LBEntry → List LBEntry
  | [] => [x]
  | y :: ys => if x.days < y.days then y :: insertDesc x ys else x :: y :: ys

/-- Stable descending insertion sort by `days`. -/
def sortDesc : List LBEntry → List LBEntry
  | [] => []
  | x :: xs => insertDesc x (sortDesc xs)

/-- `get_leaderboard_data` (src/app.py lines 125–136). -/
def get_leaderboard_data (rows : List LogRow) : List LBEntry :=
  sortDesc (lbUnsorted rows)

/-- The derived, never-stored day classification. -/
inductive DayState where
  | Workout
  | Rest
  | Missed
deriving DecidableEq, Repr

/-- The per-date classification of the `plot_calendar` loop (src/app.py lines
149–159): `Missed` when `history.get(d_str)` yields nothing, `Rest` when the
log's type is `"Rest"`, `Workout` otherwise.  (The Python guard
`if day_log:` tests dict truthiness, which coincides with presence because
`get_user_history` only stores non-empty dicts.)  A total function of the
history and the date string. -/
def day_state (history : List (String × DayLog)) (d_str : String) : DayState :=
  match history.lookup d_str with
  | none => DayState.Missed
  | some day_log => if day_log.typ == "Rest" then DayState.Rest else DayState.Workout

/-- Python dict assignment `user_history[date_str] = {...}` on an
insertion-ordered association list: overwrite in place when the key exists,
append otherwise. -/
def dictInsert (k : String) (v : DayLog) : List (String × DayLog) → List (String × DayLog)
  | [] => [(k, v)]
  | (k', v') :: rest => if k' == k then (k, v) :: rest else (k', v') :: dictInsert k v rest

/-- `get_user_history` (src/app.py lines 68–85): keep the rows of `username`,
parse the serialised `Data` column with `json.loads` (modelled by the
`parse` parameter), and skip a row whose parse fails
(`except: continue  # Skip corrupted rows`). -/
def get_user_history (parse : String → Option (List ExerciseEntry))
    (username : String) (all_logs : List LogRow) : List (String × DayLog) :=
  all_logs.foldl (fun hist row =>
    if row.username == username then
      match parse row.data with
      | some exercises => dictInsert row.date ⟨row.typ, exercises⟩ hist
      | none => hist
    else hist) []

/-- Leap-year test of the proleptic Gregorian calendar. -/
def isLeap (y : Nat) : Bool :=
  y % 4 == 0 && (y % 100 != 0 || y % 400 == 0)

/-- Days in the months of year `y` strictly before month `m` (1-based). -/
def daysBeforeMonth (y m : Nat) : Nat :=
  (List.range (m - 1)).foldl (fun acc i =>
    acc + ([31, if isLeap y then 29 else 28, 31, 30, 31, 30,
            31, 31, 30, 31, 30, 31].getD i 0)) 0

/-- Day ordinal of the Gregorian date `y-m-d`, as Python's
`datetime.date.toordinal` computes it (day 1 is 0001-01-01).  `strptime` /
`strftime("%Y-%m-%d")` convert between ISO date strings and dates
bijectively and monotonically, so histories keyed by ISO strings are
modelled as keyed by these ordinals. -/
def dateOrd (y m d : Nat) : Nat :=
  365 * (y - 1) + (y - 1) / 4 + (y - 1) / 400 - (y - 1) / 100
    + daysBeforeMonth y m + d

/-- The three counters of `plot_consistency`. -/
structure ConsistencyCounts where
  workouts : Nat
  rest : Nat
  missed : Nat
deriving DecidableEq, Repr

/-- One iteration of the `while current <= end_date` loop of
`plot_consistency`: bump the bucket chosen by `history.get(d_s)`. -/
def classifyAdd (history : List (Nat × DayLog)) (c : ConsistencyCounts) (d : Nat) :
    ConsistencyCounts :=
  match history.lookup d with
  | some l =>
    if l.typ == "Rest" then { c with rest := c.rest + 1 }
    else { c with workouts := c.workouts + 1 }
  | none => { c with missed := c.missed + 1 }

/-- The data `plot_consistency` derives: the three buckets, the
`total_days = (end_date - start_date).days + 1` figure of the caption, and
the two range endpoints. -/
structure ConsistencySummary where
  workouts : Nat
  rest : Nat
  missed : Nat
  total_days : Nat
  range_start : Nat
  range_end : Nat
deriving DecidableEq, Repr

/-- The summary computed for a non-empty history with first key `d0`:
`start_date` / `end_date` are `sorted(history.keys())[0]` and `[-1]`, i.e.
the minimum and maximum key, and the loop classifies every day of the
closed range. -/
def consistencyOf (history : List (Nat × DayLog)) (d0 : Nat) : ConsistencySummary :=
  let ds := history.map Prod.fst
  let start_date := ds.foldl Nat.min d0
  let end_date := ds.foldl Nat.max d0
  let total_days := end_date - start_date + 1
  let c := ((List.range total_days).map (fun i => start_date + i)).foldl
      (classifyAdd history) ⟨0, 0, 0⟩
  ⟨c.workouts, c.rest, c.missed, total_days, start_date, end_date⟩

/-- `plot_consistency` (src/app.py lines 167–189), up to the chart rendering:
an empty history short-circuits (`st.info(...)` and return), otherwise the
summary over the inclusive `[min key, max key]` range is computed. -/
def plot_consistency (history : List (Nat × DayLog)) : Option ConsistencySummary :=
  match history with
  | [] => none
  | (d0, _) :: _ => some (consistencyOf history d0)

/-! ### SHA-256

`hash_password` (src/app.py lines 35–36) is
`hashlib.sha256(str.encode(password)).hexdigest()`.  The algorithm is
implemented below exactly (FIPS 180-4): bytes and 32-bit words are `Nat`s
reduced mod `2 ^ 32` where overflow matters, `str.encode` is UTF-8. -/

def M32 : Nat := 4294967296

/-- UTF-8 encoding of one code point (`str.encode`). -/
def utf8EncodeChar (c : Char) : List Nat :=
  let n := c.toNat
  if n < 128 then [n]
  else if n < 2048 then [192 + n / 64, 128 + n % 64]
  else if n < 65536 then [224 + n / 4096, 128 + (n / 64) % 64, 128 + n % 64]
  else [240 + n / 262144, 128 + (n / 4096) % 64, 128 + (n / 64) % 64, 128 + n % 64]

/-- `str.encode(s)`: the UTF-8 byte sequence of a string. -/
def strBytes (s : String) : List Nat :=
  s.data.foldr (fun c acc => utf8EncodeChar c ++ acc) []

/-- Right rotation of a 32-bit word by `k` (for `0 < k < 32`, `x < 2 ^ 32`). -/
def rotr32 (k x : Nat) : Nat := x / 2 ^ k + x % 2 ^ k * 2 ^ (32 - k)

/-- Logical right shift of a 32-bit word. -/
def shr32 (k x : Nat) : Nat := x / 2 ^ k

def ssig0 (x : Nat) : Nat := Nat.xor (Nat.xor (rotr32 7 x) (rotr32 18 x)) (shr32 3 x)

def ssig1 (x : Nat) : Nat := Nat.xor (Nat.xor (rotr32 17 x) (rotr32 19 x)) (shr32 10 x)

def bsig0 (x : Nat) : Nat := Nat.xor (Nat.xor (rotr32 2 x) (rotr32 13 x)) (rotr32 22 x)

def bsig1 (x : Nat) : Nat := Nat.xor (Nat.xor (rotr32 6 x) (rotr32 11 x)) (rotr32 25 x)

/-- `Ch(e,f,g)`; the complement of a 32-bit word is `2 ^ 32 - 1 - x`. -/
def chf (e f g : Nat) : Nat := Nat.xor (Nat.land e f) (Nat.land (4294967295 - e) g)

def majf (a b c : Nat) : Nat :=
  Nat.xor (Nat.xor (Nat.land a b) (Nat.land a c)) (Nat.land b c)

/-- The 64 SHA-256 round constants (the fractional cube-root words of the
first 64 primes, FIPS 180-4 section 4.2.2, in decimal). -/
def K256 : List Nat :=
  [1116352408, 1899447441, 3049323471, 3921009573,
   961987163, 1508970993, 2453635748, 2870763221,
   3624381080, 310598401, 607225278, 1426881987,
   1925078388, 2162078206, 2614888103, 3248222580,
   3835390401, 4022224774, 264347078, 604807628,
   770255983, 1249150122, 1555081692, 1996064986,
   2554220882, 2821834349, 2952996808, 3210313671,
   3336571891, 3584528711, 113926993, 338241895,
   666307205, 773529912, 1294757372, 1396182291,
   1695183700, 1986661051, 2177026350, 2456956037,
   2730485921, 2820302411, 3259730800, 3345764771,
   3516065817, 3600352804, 4094571909, 275423344,
   430227734, 506948616, 659060556, 883997877,
   958139571, 1322822218, 1537002063, 1747873779,
   1955562222, 2024104815, 2227730452, 2361852424,
   2428436474, 2756734187, 3204031479, 3329325298]

/-- The eight working variables / hash words. -/
structure Hash8 where
  a : Nat
  b : Nat
  c : Nat
  d : Nat
  e : Nat
  f : Nat
  g : Nat
  h : Nat
deriving DecidableEq, Repr

/-- The SHA-256 initial hash value. -/
def sha256Init : Hash8 :=
  ⟨1779033703, 3144134277, 1013904242, 2773480762,
   1359893119, 2600822924, 528734635, 1541459225⟩

/-- `k` bytes of `n`, big-endian. -/
def beBytes (k n : Nat) : List Nat :=
  (List.range k).map (fun i => n / 2 ^ (8 * (k - 1 - i)) % 256)

/-- SHA-256 padding: `0x80`, zeros to 56 mod 64, then the 64-bit big-endian
bit length. -/
def padBytes (msg : List Nat) : List Nat :=
  msg ++ 128 :: List.replicate ((120 - (msg.length + 1) % 64) % 64) 0
    ++ beBytes 8 (8 * msg.length)

/-- Split into 64-byte chunks; the fuel bounds the recursion and
`l.length` is always enough of it. -/
def chunks64Fuel : Nat → List Nat → List (List Nat)
  | 0, _ => []
  | _, [] => []
  | fuel + 1, l => l.take 64 :: chunks64Fuel fuel (l.drop 64)

def chunks64 (l : List Nat) : List (List Nat) := chunks64Fuel l.length l

/-- The sixteen big-endian 32-bit words of one 64-byte block. -/
def blockWords (block : List Nat) : List Nat :=
  (List.range 16).map (fun i =>
    block.getD (4 * i) 0 * 16777216 + block.getD (4 * i + 1) 0 * 65536
      + block.getD (4 * i + 2) 0 * 256 + block.getD (4 * i + 3) 0)

/-- Message-schedule extension of the 16 block words to 64. -/
def extendWords (ws : List Nat) : List Nat :=
  (List.range 48).foldl (fun w _ =>
    let t := w.length
    w ++ [(ssig1 (w.getD (t - 2) 0) + w.getD (t - 7) 0 + ssig0 (w.getD (t - 15) 0)
      + w.getD (t - 16) 0) % M32]) ws

/-- One compression round. -/
def sha256Round (W : List Nat) (st : Hash8) (t : Nat) : Hash8 :=
  let T1 := (st.h + bsig1 st.e + chf st.e st.f st.g + K256.getD t 0 + W.getD t 0) % M32
  let T2 := (bsig0 st.a + majf st.a st.b st.c) % M32
  ⟨(T1 + T2) % M32, st.a, st.b, st.c, (st.d + T1) % M32, st.e, st.f, st.g⟩

/-- Compress one 64-byte block into the running hash value. -/
def compressBlock (hv : Hash8) (block : List Nat) : Hash8 :=
  let W := extendWords (blockWords block)
  let st := (List.range 64).foldl (sha256Round W) hv
  ⟨(hv.a + st.a) % M32, (hv.b + st.b) % M32, (hv.c + st.c) % M32, (hv.d + st.d) % M32,
   (hv.e + st.e) % M32, (hv.f + st.f) % M32, (hv.g + st.g) % M32, (hv.h + st.h) % M32⟩

def sha256Words (msg : List Nat) : Hash8 :=
  (chunks64 (padBytes msg)).foldl compressBlock sha256Init

def hexDigit (n : Nat) : Char :=
  if n < 10 then Char.ofNat (48 + n) else Char.ofNat (87 + n)

def hexWord (w : Nat) : List Char :=
  (List.range 8).map (fun i => hexDigit (w / 16 ^ (7 - i) % 16))

/-- `hashlib.sha256(bytes).hexdigest()`. -/
def sha256hex (msg : List Nat) : String :=
  let hv := sha256Words msg
  String.mk (hexWord hv.a ++ hexWord hv.b ++ hexWord hv.c ++ hexWord hv.d
    ++ hexWord hv.e ++ hexWord hv.f ++ hexWord hv.g ++ hexWord hv.h)

/-- `hash_password` (src/app.py lines 35–36). -/
def hash_password (password : String) : String := sha256hex (strBytes password)

/-- Python dict assignment for the Users dict comprehension. -/
def dictInsertS (k v : String) : List (String × String) → List (String × String)
  | [] => [(k, v)]
  | (k', v') :: rest => if k' == k then (k, v) :: rest else (k', v') :: dictInsertS k v rest

/-- `get_all_users` (src/app.py lines 38–43): the rows
`(username, stored password hash)` of the Users worksheet turned into the
dict `{r['Username']: str(r['Password'])}` — on duplicate usernames the
later row wins, as in the Python comprehension. -/
def get_all_users (rows : List (String × String)) : List (String × String) :=
  rows.foldl (fun d kv => dictInsertS kv.1 kv.2 d) []

/-- `register_user` (src/app.py lines 45–53): refuse (return `false`) when
the username is already a key of the users dict — a case-sensitive exact
string match — otherwise append `[username, hash_password(password)]` and
return `true`.  The returned pair is (result, new Users worksheet). -/
def register_user (username password : String) (rows : List (String × String)) :
    Bool × List (String × String) :=
  if ((get_all_users rows).lookup username).isSome then (false, rows)
  else (true, rows ++ [(username, hash_password password)])

/-- `authenticate` (src/app.py lines 55–59):
`username in users and users[username] == hash_password(password)`. -/
def authenticate (username password : String) (rows : List (String × String)) : Bool :=
  match (get_all_users rows).lookup username with
  | some stored => stored == hash_password password
  | none => false

end GymTracker

namespace GymTracker

theorem filter_deleteFirstKey_of_countKey_le_one (u d : String) (rows : List LogRow)
    (h : countKey u d rows ≤ 1) :
    (deleteFirstKey u d rows).filter (rowKeyMatches u d) = [] := by
  induction rows with
  | nil => rfl
  | cons r rs ih =>
    by_cases hr : rowKeyMatches u d r
    · simp only [deleteFirstKey, hr, if_true]
      have : countKey u d rs = 0 := by
        simpa [countKey, hr, Nat.succ_le_succ_iff] using h
      simpa [countKey, List.length_eq_zero] using this
    · simp only [deleteFirstKey, hr, if_false, List.filter_cons]
      have h' : countKey u d rs ≤ 1 := by
        simpa [countKey, hr] using h
      simpa [hr] using ih h'

theorem filter_save_of_countKey_le_one (dumps : List ExerciseEntry → String)
    (u d t : String) (exs : List ExerciseEntry) (rows : List LogRow)
    (h : countKey u d rows ≤ 1) :
    (save_log_to_sheet dumps u d t exs rows).filter (rowKeyMatches u d)
      = [⟨u, d, t, dumps exs⟩] := by
  have hnew : rowKeyMatches u d ⟨u, d, t, dumps exs⟩ = true := by
    simp [rowKeyMatches]
  simp [save_log_to_sheet, List.filter_append,
    filter_deleteFirstKey_of_countKey_le_one u d rows h, hnew]

theorem countKey_save_of_countKey_le_one (dumps : List ExerciseEntry → String)
    (u d t : String) (exs : List ExerciseEntry) (rows : List LogRow)
    (h : countKey u d rows ≤ 1) :
    countKey u d (save_log_to_sheet dumps u d t exs rows) = 1 := by
  unfold countKey
  rw [filter_save_of_countKey_le_one dumps u d t exs rows h]
  rfl

/-- Folding a sequence of upserts for one key over the sheet. -/
def runUpserts (dumps : List ExerciseEntry → String) (u d : String)
    (calls : List (String × List ExerciseEntry)) (rows : List LogRow) : List LogRow :=
  calls.foldl (fun rs c => save_log_to_sheet dumps u d c.1 c.2 rs) rows

theorem runUpserts_filter_eq_last (dumps : List ExerciseEntry → String) (u d : String)
    (calls : List (String × List ExerciseEntry)) (rows : List LogRow)
    (h : countKey u d rows ≤ 1) (t : String) (exs : List ExerciseEntry)
    (hlast : calls.getLast? = some (t, exs)) :
    (runUpserts dumps u d calls rows).filter (rowKeyMatches u d)
      = [⟨u, d, t, dumps exs⟩] := by
  induction calls generalizing rows with
  | nil => simp at hlast
  | cons c rest ih =>
    cases rest with
    | nil =>
      have hc : c = (t, exs) := by simpa using hlast
      subst hc
      simpa [runUpserts] using
        filter_save_of_countKey_le_one dumps u d t exs rows h
    | cons c' rest' =>
      have hstep : countKey u d (save_log_to_sheet dumps u d c.1 c.2 rows) ≤ 1 := by
        rw [countKey_save_of_countKey_le_one dumps u d c.1 c.2 rows h]
      have hlast' : (c' :: rest').getLast? = some (t, exs) := by
        simpa [List.getLast?_cons_cons] using hlast
      simpa [runUpserts] using
        ih (save_log_to_sheet dumps u d c.1 c.2 rows) hstep hlast'

/-- Claim C1: starting from a sheet with no duplicate rows for the key
`(username, date)`, any non-empty sequence of `save_log_to_sheet` calls for
that key leaves exactly one row for it, carrying the type and the serialised
exercise list of the last call (full replacement); in particular upserting
`("ali", "2024-03-01")` with the "Anterior A" template and then with
`"Rest"` and the empty list leaves the single row
`["ali", "2024-03-01", "Rest", dumps []]`. -/
theorem upsert_key_uniqueness (dumps : List ExerciseEntry → String) (u d : String)
    (calls : List (String × List ExerciseEntry)) (rows : List LogRow)
    (t : String) (exs : List ExerciseEntry)
    (h : countKey u d rows ≤ 1) (hlast : calls.getLast? = some (t, exs)) :
    (runUpserts dumps u d calls rows).filter (rowKeyMatches u d)
        = [⟨u, d, t, dumps exs⟩]
      ∧ save_log_to_sheet dumps "ali" "2024-03-01" "Rest" []
          (save_log_to_sheet dumps "ali" "2024-03-01" "Anterior A"
            (apply_template "Anterior A") [])
        = [⟨"ali", "2024-03-01", "Rest", dumps []⟩] := by
  refine ⟨runUpserts_filter_eq_last dumps u d calls rows h t exs hlast, ?_⟩
  simp [save_log_to_sheet, deleteFirstKey, rowKeyMatches]

/-- Witness for `upsert_key_uniqueness` at a concrete sheet and call list. -/
theorem upsert_key_uniqueness_witness :
    (runUpserts (fun _ => "[]") "ali" "2024-03-01"
        [("Anterior A", apply_template "Anterior A"), ("Rest", [])]
        []).filter (rowKeyMatches "ali" "2024-03-01")
      = [⟨"ali", "2024-03-01", "Rest", (fun (_ : List ExerciseEntry) => "[]") []⟩] :=
  (upsert_key_uniqueness (fun _ => "[]") "ali" "2024-03-01"
    [("Anterior A", apply_template "Anterior A"), ("Rest", [])] []
    "Rest" [] (by decide) (by rfl)).1

theorem countKey_eq_zero_deleteFirstKey_id (u d : String) (rows : List LogRow)
    (h : countKey u d rows = 0) : deleteFirstKey u d rows = rows := by
  induction rows with
  | nil => rfl
  | cons r rs ih =>
    by_cases hr : rowKeyMatches u d r
    · simp [countKey, hr] at h
    · have h' : countKey u d rs = 0 := by simpa [countKey, hr] using h
      simp [deleteFirstKey, hr, ih h']

theorem countKey_deleteFirstKey_eq_zero (u d : String) (rows : List LogRow)
    (h : countKey u d rows ≤ 1) : countKey u d (deleteFirstKey u d rows) = 0 := by
  simp [countKey, filter_deleteFirstKey_of_countKey_le_one u d rows h]

/-- A concrete sheet holding two rows with the same key: the claim quantifies
over every store state, and on this one `delete_log_from_sheet` (which removes
only the first matching row) is not idempotent. -/
theorem delete_not_idempotent_on_duplicates :
    ¬ (delete_log_from_sheet "ali" "2024-03-01"
          (delete_log_from_sheet "ali" "2024-03-01"
            [⟨"ali", "2024-03-01", "Rest", "[]"⟩, ⟨"ali", "2024-03-01", "Rest", "[]"⟩])
        = delete_log_from_sheet "ali" "2024-03-01"
            [⟨"ali", "2024-03-01", "Rest", "[]"⟩, ⟨"ali", "2024-03-01", "Rest", "[]"⟩]) := by
  decide

/-- Claim C6 (amended): on a store holding at most one row for the key —
every state reachable by the application's own upserts — deleting twice
yields the same store as deleting once, and deleting a key with no matching
row leaves the store unchanged (the loop simply returns, signalling no
error). -/
theorem delete_idempotent (u d : String) (rows : List LogRow)
    (h : countKey u d rows ≤ 1) :
    delete_log_from_sheet u d (delete_log_from_sheet u d rows)
        = delete_log_from_sheet u d rows
      ∧ (countKey u d rows = 0 → delete_log_from_sheet u d rows = rows) := by
  constructor
  · exact countKey_eq_zero_deleteFirstKey_id u d _
      (countKey_deleteFirstKey_eq_zero u d rows h)
  · exact fun h0 => countKey_eq_zero_deleteFirstKey_id u d rows h0

/-- Witness for `delete_idempotent` on a concrete one-row sheet. -/
theorem delete_idempotent_witness :
    delete_log_from_sheet "ali" "2024-03-01"
        (delete_log_from_sheet "ali" "2024-03-01" [⟨"ali", "2024-03-01", "Rest", "[]"⟩])
      = delete_log_from_sheet "ali" "2024-03-01" [⟨"ali", "2024-03-01", "Rest", "[]"⟩] :=
  (delete_idempotent "ali" "2024-03-01" [⟨"ali", "2024-03-01", "Rest", "[]"⟩] (by decide)).1

theorem filter_not_key_deleteFirstKey (u d : String) (rows : List LogRow) :
    (deleteFirstKey u d rows).filter (fun r => !(rowKeyMatches u d r))
      = rows.filter (fun r => !(rowKeyMatches u d r)) := by
  induction rows with
  | nil => rfl
  | cons r rs ih =>
    by_cases hr : rowKeyMatches u d r
    · simp [deleteFirstKey, hr]
    · simp [deleteFirstKey, hr, ih]

/-- Claim C10: `save_log_to_sheet` and `delete_log_from_sheet` for a key
`(username, date)` leave the subsequence of rows whose key differs — other
users' logs and the same user's logs on other dates — exactly as it was. -/
theorem save_delete_frame (dumps : List ExerciseEntry → String)
    (u d t : String) (exs : List ExerciseEntry) (rows : List LogRow) :
    (save_log_to_sheet dumps u d t exs rows).filter (fun r => !(rowKeyMatches u d r))
        = rows.filter (fun r => !(rowKeyMatches u d r))
      ∧ (delete_log_from_sheet u d rows).filter (fun r => !(rowKeyMatches u d r))
        = rows.filter (fun r => !(rowKeyMatches u d r)) := by
  constructor
  · have hnew : rowKeyMatches u d ⟨u, d, t, dumps exs⟩ = true := by
      simp [rowKeyMatches]
    simp [save_log_to_sheet, List.filter_append, hnew,
      filter_not_key_deleteFirstKey]
  · exact filter_not_key_deleteFirstKey u d rows

theorem mem_insertDesc (x a : LBEntry) (l : List LBEntry) :
    a ∈ insertDesc x l ↔ a = x ∨ a ∈ l := by
  induction l with
  | nil => simp [insertDesc]
  | cons y ys ih =>
    by_cases hy : x.days < y.days
    · simp only [insertDesc, hy, if_true, List.mem_cons, ih]
      tauto
    · simp only [insertDesc, hy, if_false, List.mem_cons]

theorem pairwise_insertDesc (x : LBEntry) (l : List LBEntry)
    (h : l.Pairwise (fun a b => b.days ≤ a.days)) :
    (insertDesc x l).Pairwise (fun a b => b.days ≤ a.days) := by
  induction l with
  | nil => simp [insertDesc]
  | cons y ys ih =>
    rcases List.pairwise_cons.mp h with ⟨hy, hys⟩
    by_cases hxy : x.days < y.days
    · simp only [insertDesc, hxy, if_true]
      refine List.pairwise_cons.mpr ⟨?_, ih hys⟩
      intro a ha
      rcases (mem_insertDesc x a ys).mp ha with rfl | ha'
      · exact Nat.le_of_lt hxy
      · exact hy a ha'
    · simp only [insertDesc, hxy, if_false]
      refine List.pairwise_cons.mpr ⟨?_, h⟩
      intro a ha
      rcases List.mem_cons.mp ha with rfl | ha'
      · exact Nat.le_of_not_lt hxy
      · exact le_trans (hy a ha') (Nat.le_of_not_lt hxy)

theorem pairwise_sortDesc (l : List LBEntry) :
    (sortDesc l).Pairwise (fun a b => b.days ≤ a.days) := by
  induction l with
  | nil => simp [sortDesc]
  | cons x xs ih => exact pairwise_insertDesc x (sortDesc xs) ih

theorem filter_insertDesc (x : LBEntry) (l : List LBEntry) (c : Nat) :
    (insertDesc x l).filter (fun e => e.days == c)
      = if x.days = c then x :: l.filter (fun e => e.days == c)
        else l.filter (fun e => e.days == c) := by
  induction l with
  | nil => by_cases hx : x.days = c <;> simp [insertDesc, hx]
  | cons y ys ih =>
    by_cases hxy : x.days < y.days
    · have hstep : insertDesc x (y :: ys) = y :: insertDesc x ys := by
        simp [insertDesc, hxy]
      by_cases hxc : x.days = c
      · have hyc : ¬ y.days = c := by omega
        rw [hstep, List.filter_cons, if_neg (by simpa using hyc), ih,
          if_pos hxc, if_pos hxc, List.filter_cons, if_neg (by simpa using hyc)]
      · rw [hstep, List.filter_cons, ih, if_neg hxc, if_neg hxc, List.filter_cons]
    · have hstep : insertDesc x (y :: ys) = x :: y :: ys := by
        simp [insertDesc, hxy]
      by_cases hxc : x.days = c
      · rw [hstep, List.filter_cons, if_pos (by simpa using hxc), if_pos hxc]
      · rw [hstep, List.filter_cons, if_neg (by simpa using hxc), if_neg hxc]

theorem filter_sortDesc (l : List LBEntry) (c : Nat) :
    (sortDesc l).filter (fun e => e.days == c) = l.filter (fun e => e.days == c) := by
  induction l with
  | nil => rfl
  | cons x xs ih =>
    by_cases hxc : x.days = c <;>
      simp [sortDesc, filter_insertDesc, hxc, List.filter_cons, ih]

/-- Claim C9: for a fixed input row order, the leaderboard is sorted
descending by `Days`, and for every count value the entries carrying it
appear in exactly the order of the unsorted (first-encounter-ordered) list:
the sort is stable, and being a function of the input it is deterministic. -/
theorem leaderboard_sorted_stable (rows : List LogRow) :
    (get_leaderboard_data rows).Pairwise (fun a b => b.days ≤ a.days)
      ∧ ∀ c : Nat, (get_leaderboard_data rows).filter (fun e => e.days == c)
          = (lbUnsorted rows).filter (fun e => e.days == c) := by
  exact ⟨pairwise_sortDesc (lbUnsorted rows),
    fun c => filter_sortDesc (lbUnsorted rows) c⟩

theorem fst_mem_dictIncr (u : String) (l : List (String × Nat)) (kv : String × Nat)
    (h : kv ∈ dictIncr u l) : kv.1 = u ∨ ∃ w, (kv.1, w) ∈ l := by
  induction l with
  | nil =>
    simp only [dictIncr, List.mem_singleton] at h
    subst h
    exact Or.inl rfl
  | cons p rest ih =>
    obtain ⟨k, v⟩ := p
    simp only [dictIncr] at h
    by_cases hk : (k == u) = true
    · rw [if_pos hk] at h
      rcases List.mem_cons.mp h with rfl | h'
      · exact Or.inl (by simpa using hk)
      · exact Or.inr ⟨kv.2, List.mem_cons_of_mem _ h'⟩
    · rw [if_neg hk] at h
      rcases List.mem_cons.mp h with rfl | h'
      · exact Or.inr ⟨v, List.mem_cons_self _ _⟩
      · rcases ih h' with h1 | ⟨w, hw⟩
        · exact Or.inl h1
        · exact Or.inr ⟨w, List.mem_cons_of_mem _ hw⟩

theorem user_counts_key_has_workout_row (rows : List LogRow)
    (acc : List (String × Nat)) (kv : String × Nat)
    (h : kv ∈ rows.foldl
        (fun acc r => if r.typ != "Rest" then dictIncr r.username acc else acc) acc) :
    (∃ w, (kv.1, w) ∈ acc) ∨ ∃ r ∈ rows, r.username = kv.1 ∧ r.typ ≠ "Rest" := by
  induction rows generalizing acc kv with
  | nil => exact Or.inl ⟨kv.2, by simpa using h⟩
  | cons r rest ih =>
    simp only [List.foldl_cons] at h
    by_cases hr : (r.typ != "Rest") = true
    · rw [if_pos hr] at h
      rcases ih (dictIncr r.username acc) kv h with ⟨w, hw⟩ | h2
      · rcases fst_mem_dictIncr r.username acc (kv.1, w) hw with he | ⟨w', hw'⟩
        · exact Or.inr ⟨r, List.mem_cons_self _ _, by simpa using he.symm,
            by simpa using hr⟩
        · exact Or.inl ⟨w', hw'⟩
      · rcases h2 with ⟨r', hr', hu, ht⟩
        exact Or.inr ⟨r', List.mem_cons_of_mem _ hr', hu, ht⟩
    · rw [if_neg hr] at h
      rcases ih acc kv h with h1 | h2
      · exact Or.inl h1
      · rcases h2 with ⟨r', hr', hu, ht⟩
        exact Or.inr ⟨r', List.mem_cons_of_mem _ hr', hu, ht⟩

theorem mem_sortDesc (a : LBEntry) (l : List LBEntry) : a ∈ sortDesc l ↔ a ∈ l := by
  induction l with
  | nil => simp [sortDesc]
  | cons x xs ih =>
    simp only [sortDesc, mem_insertDesc, List.mem_cons, ih]

/-- Counterexample to claim C2 as stated: on a store where user `"ali"` has
only a Rest-day log, `get_leaderboard_data` returns the empty list — the
user is omitted, not listed with `workout_day_count == 0`. -/
theorem leaderboard_omits_rest_only_user_cex :
    (∀ r ∈ [(⟨"ali", "2024-03-01", "Rest", "[]"⟩ : LogRow)],
        r.username = "ali" → r.typ = "Rest")
      ∧ get_leaderboard_data [⟨"ali", "2024-03-01", "Rest", "[]"⟩] = [] := by
  decide

/-- Claim C2 (amended): a user all of whose logs have type `"Rest"` has no
non-Rest row to count, so no entry for that user — with count `0` or any
other — appears in the leaderboard output: the user is omitted. -/
theorem leaderboard_omits_rest_only_user (rows : List LogRow) (u : String)
    (hrest : ∀ r ∈ rows, r.username = u → r.typ = "Rest") :
    ∀ e ∈ get_leaderboard_data rows, e.user ≠ u := by
  intro e he
  have he' : e ∈ lbUnsorted rows := (mem_sortDesc e (lbUnsorted rows)).mp he
  rcases List.mem_map.mp he' with ⟨kv, hkv, rfl⟩
  rcases user_counts_key_has_workout_row rows [] kv hkv with ⟨w, hw⟩ | h2
  · exact absurd hw (List.not_mem_nil _)
  · rcases h2 with ⟨r, hr, hu, ht⟩
    intro hue
    exact ht (hrest r hr (by rw [hu]; exact hue))

/-- Witness for `leaderboard_omits_rest_only_user` on a concrete store: the
one entry its leaderboard holds is bob's, not ali's. -/
theorem leaderboard_omits_rest_only_user_witness :
    (⟨"bob", 1⟩ : LBEntry).user ≠ "ali" :=
  leaderboard_omits_rest_only_user
    [⟨"ali", "2024-03-01", "Rest", "[]"⟩, ⟨"bob", "2024-03-01", "Anterior A", "[]"⟩]
    "ali" (by decide) ⟨"bob", 1⟩ (by decide)

/-- Claim C4: for every history and every date string, `day_state` yields
exactly one of the three states, with `Missed` precisely when no log exists
for the date, `Rest` precisely when a log exists with type `"Rest"`, and
`Workout` precisely when a log exists with any other type.  Purity and
totality over arbitrary date strings hold by construction: `day_state` is a
total Lean function of its two arguments. -/
theorem day_state_total (history : List (String × DayLog)) (d : String) :
    (day_state history d = DayState.Missed ∨ day_state history d = DayState.Rest
        ∨ day_state history d = DayState.Workout)
      ∧ (day_state history d = DayState.Missed ↔ history.lookup d = none)
      ∧ (day_state history d = DayState.Rest
          ↔ ∃ l, history.lookup d = some l ∧ l.typ = "Rest")
      ∧ (day_state history d = DayState.Workout
          ↔ ∃ l, history.lookup d = some l ∧ l.typ ≠ "Rest") := by
  unfold day_state
  cases hl : history.lookup d with
  | none => simp
  | some l => by_cases hr : l.typ = "Rest" <;> simp [hr]

theorem foldl_eq_foldl_filter {α β : Type} (f : β → α → β) (p : α → Bool)
    (hf : ∀ b a, p a = false → f b a = b) (l : List α) (b : β) :
    l.foldl f b = (l.filter p).foldl f b := by
  induction l generalizing b with
  | nil => rfl
  | cons a l' ih =>
    cases hp : p a with
    | true => simp only [List.foldl_cons, List.filter_cons, hp, if_true]; exact ih (f b a)
    | false =>
      simp only [List.foldl_cons, List.filter_cons, hp, hf b a hp]
      exact ih b

theorem lookup_dictInsert (k k' : String) (v : DayLog) (l : List (String × DayLog)) :
    (dictInsert k v l).lookup k' = if k' == k then some v else l.lookup k' := by
  induction l with
  | nil =>
    by_cases hk : (k' == k) = true <;> simp [dictInsert, List.lookup, hk]
  | cons p rest ih =>
    obtain ⟨a, b⟩ := p
    by_cases ha : (a == k) = true
    · have hak : a = k := by simpa using ha
      subst hak
      by_cases hk' : (k' == a) = true
      · have h1 : k' = a := by simpa using hk'
        simp [dictInsert, List.lookup, hk', h1]
      · have h1 : ¬ k' = a := by simpa using hk'
        simp [dictInsert, List.lookup, hk', h1]
    · have hne : ¬ a = k := by simpa using ha
      by_cases hk'a : (k' == a) = true
      · have h1 : k' = a := by simpa using hk'a
        have h2 : (k' == k) = false := by rw [h1]; simpa using hne
        simp [dictInsert, ha, List.lookup, hk'a, h2]
      · simp [dictInsert, ha, List.lookup, hk'a, ih]

theorem get_user_history_lookup_aux (parse : String → Option (List ExerciseEntry))
    (u : String) (logs : List LogRow) (acc : List (String × DayLog)) (d : String)
    (h : (acc.lookup d).isSome
        ∨ ∃ r ∈ logs, r.username = u ∧ (parse r.data).isSome ∧ r.date = d) :
    ((logs.foldl (fun hist row =>
        if row.username == u then
          match parse row.data with
          | some exercises => dictInsert row.date ⟨row.typ, exercises⟩ hist
          | none => hist
        else hist) acc).lookup d).isSome := by
  induction logs generalizing acc with
  | nil =>
    rcases h with h1 | ⟨r, hr, _⟩
    · simpa using h1
    · exact absurd hr (List.not_mem_nil r)
  | cons r rest ih =>
    simp only [List.foldl_cons]
    set acc' := (if r.username == u then
        match parse r.data with
        | some exercises => dictInsert r.date ⟨r.typ, exercises⟩ acc
        | none => acc
      else acc) with hacc'
    have hmono : (acc.lookup d).isSome → (acc'.lookup d).isSome := by
      intro hsome
      rw [hacc']
      by_cases hu : (r.username == u) = true
      · rw [if_pos hu]
        cases parse r.data with
        | none => exact hsome
        | some exercises =>
          rw [lookup_dictInsert]
          by_cases hd : (d == r.date) = true
          · simp [hd]
          · simpa [hd] using hsome
      · rw [if_neg hu]; exact hsome
    rcases h with h1 | ⟨r', hr', hu', hp', hd'⟩
    · exact ih acc' (Or.inl (hmono h1))
    · rcases List.mem_cons.mp hr' with rfl | hmem
      · refine ih acc' (Or.inl ?_)
        rw [hacc', if_pos (by simpa using hu')]
        cases hp : parse r'.data with
        | none => rw [hp] at hp'; simp at hp'
        | some exercises =>
          rw [lookup_dictInsert]
          simp [hd']
      · exact ih acc' (Or.inr ⟨r', hmem, hu', hp', hd'⟩)

/-- Claim C7: per-user history loading ignores exactly the rows that are not
this user's well-formed rows — dropping every malformed or foreign row from
the input changes nothing — and every well-formed row of the user
contributes its date to the resulting history, so one corrupted record never
aborts the load. -/
theorem get_user_history_skips_corrupted (parse : String → Option (List ExerciseEntry))
    (u : String) (logs : List LogRow) :
    get_user_history parse u logs
        = get_user_history parse u
            (logs.filter (fun r => r.username == u && (parse r.data).isSome))
      ∧ ∀ r ∈ logs, r.username = u → (parse r.data).isSome →
          ((get_user_history parse u logs).lookup r.date).isSome := by
  constructor
  · unfold get_user_history
    apply foldl_eq_foldl_filter
    intro hist r hp
    by_cases hu : (r.username == u) = true
    · have hparse : (parse r.data).isSome = false := by
        simpa [hu] using hp
      cases hps : parse r.data with
      | none => simp [hu]
      | some exercises => rw [hps] at hparse; simp at hparse
    · simp [hu]
  · intro r hr hu hp
    exact get_user_history_lookup_aux parse u logs [] r.date
      (Or.inr ⟨r, hr, hu, hp, rfl⟩)

/-- Witness for `get_user_history_skips_corrupted`: with a parse function
that accepts only `"[]"`, the well-formed row's date survives a corrupted
sibling row. -/
theorem get_user_history_skips_corrupted_witness :
    ((get_user_history (fun s => if s == "[]" then some [] else none) "ali"
        [⟨"ali", "2024-03-01", "Anterior A", "[]"⟩,
         ⟨"ali", "2024-03-02", "Anterior B", "corrupted"⟩]).lookup
      "2024-03-01").isSome :=
  (get_user_history_skips_corrupted (fun s => if s == "[]" then some [] else none) "ali"
      [⟨"ali", "2024-03-01", "Anterior A", "[]"⟩,
       ⟨"ali", "2024-03-02", "Anterior B", "corrupted"⟩]).2
    ⟨"ali", "2024-03-01", "Anterior A", "[]"⟩ (by decide) (by decide) (by decide)

theorem foldl_min_le (l : List Nat) (a : Nat) :
    l.foldl Nat.min a ≤ a ∧ ∀ x ∈ l, l.foldl Nat.min a ≤ x := by
  induction l generalizing a with
  | nil => exact ⟨Nat.le_refl a, by simp⟩
  | cons y ys ih =>
    constructor
    · exact Nat.le_trans (ih (Nat.min a y)).1 (Nat.min_le_left a y)
    · intro x hx
      rcases List.mem_cons.mp hx with rfl | hx'
      · exact Nat.le_trans (ih (Nat.min a x)).1 (Nat.min_le_right a x)
      · exact (ih (Nat.min a y)).2 x hx'

theorem le_foldl_max (l : List Nat) (a : Nat) :
    a ≤ l.foldl Nat.max a ∧ ∀ x ∈ l, x ≤ l.foldl Nat.max a := by
  induction l generalizing a with
  | nil => exact ⟨Nat.le_refl a, by simp⟩
  | cons y ys ih =>
    constructor
    · exact Nat.le_trans (Nat.le_max_left a y) (ih (Nat.max a y)).1
    · intro x hx
      rcases List.mem_cons.mp hx with rfl | hx'
      · exact Nat.le_trans (Nat.le_max_right a x) (ih (Nat.max a x)).1
      · exact (ih (Nat.max a y)).2 x hx'

theorem foldl_min_mem (l : List Nat) (a : Nat) :
    l.foldl Nat.min a = a ∨ l.foldl Nat.min a ∈ l := by
  induction l generalizing a with
  | nil => exact Or.inl rfl
  | cons y ys ih =>
    have hfold : (y :: ys).foldl Nat.min a = ys.foldl Nat.min (Nat.min a y) := rfl
    rcases ih (Nat.min a y) with h | h
    · rcases Nat.le_total a y with hay | hya
      · refine Or.inl ?_
        have hm : Nat.min a y = a := min_eq_left hay
        rw [hfold, h, hm]
      · refine Or.inr ?_
        have hm : Nat.min a y = y := min_eq_right hya
        rw [hfold, h, hm]
        exact List.mem_cons_self y ys
    · exact Or.inr (List.mem_cons_of_mem y (by rw [hfold]; exact h))

theorem foldl_max_mem (l : List Nat) (a : Nat) :
    l.foldl Nat.max a = a ∨ l.foldl Nat.max a ∈ l := by
  induction l generalizing a with
  | nil => exact Or.inl rfl
  | cons y ys ih =>
    have hfold : (y :: ys).foldl Nat.max a = ys.foldl Nat.max (Nat.max a y) := rfl
    rcases ih (Nat.max a y) with h | h
    · rcases Nat.le_total y a with hya | hay
      · refine Or.inl ?_
        have hm : Nat.max a y = a := max_eq_left hya
        rw [hfold, h, hm]
      · refine Or.inr ?_
        have hm : Nat.max a y = y := max_eq_right hay
        rw [hfold, h, hm]
        exact List.mem_cons_self y ys
    · exact Or.inr (List.mem_cons_of_mem y (by rw [hfold]; exact h))

/-- The sum of the three buckets. -/
def csum (c : ConsistencyCounts) : Nat := c.workouts + c.rest + c.missed

theorem csum_classifyAdd (history : List (Nat × DayLog)) (c : ConsistencyCounts)
    (d : Nat) : csum (classifyAdd history c d) = csum c + 1 := by
  unfold classifyAdd csum
  cases history.lookup d with
  | none => simp; omega
  | some l =>
    by_cases hr : (l.typ == "Rest") = true <;> simp [hr] <;> omega

theorem csum_foldl_classifyAdd (history : List (Nat × DayLog)) (l : List Nat)
    (c : ConsistencyCounts) :
    csum (l.foldl (classifyAdd history) c) = csum c + l.length := by
  induction l generalizing c with
  | nil => rfl
  | cons d rest ih =>
    simp only [List.foldl_cons, List.length_cons, ih, csum_classifyAdd]
    omega

theorem consistencyOf_total (history : List (Nat × DayLog)) (d0 : Nat) :
    (consistencyOf history d0).workouts + (consistencyOf history d0).rest
        + (consistencyOf history d0).missed = (consistencyOf history d0).total_days := by
  have h := csum_foldl_classifyAdd history
    ((List.range ((history.map Prod.fst).foldl Nat.max d0
        - (history.map Prod.fst).foldl Nat.min d0 + 1)).map
      (fun i => (history.map Prod.fst).foldl Nat.min d0 + i)) ⟨0, 0, 0⟩
  simpa [consistencyOf, csum] using h

/-- Claim C3: for every non-empty history the consistency summary satisfies
`workouts + rest + missed = total_days` and
`total_days = range_end - range_start + 1`, where the range endpoints are
the minimum and the maximum logged date; the concrete history with a
Workout on 2024-03-01 and a Rest on 2024-03-03 yields `total_days = 3`,
`workouts = 1`, `rest = 1`, `missed = 1`. -/
theorem consistency_totals (history : List (Nat × DayLog)) (hne : history ≠ []) :
    (∃ s, plot_consistency history = some s
        ∧ s.workouts + s.rest + s.missed = s.total_days
        ∧ s.total_days = s.range_end - s.range_start + 1
        ∧ s.range_start ∈ history.map Prod.fst
        ∧ s.range_end ∈ history.map Prod.fst
        ∧ ∀ x ∈ history.map Prod.fst, s.range_start ≤ x ∧ x ≤ s.range_end)
      ∧ plot_consistency
            [(dateOrd 2024 3 1, ⟨"Anterior A", apply_template "Anterior A"⟩),
             (dateOrd 2024 3 3, ⟨"Rest", []⟩)]
          = some ⟨1, 1, 1, 3, dateOrd 2024 3 1, dateOrd 2024 3 3⟩ := by
  constructor
  · cases history with
    | nil => exact absurd rfl hne
    | cons p rest =>
      obtain ⟨d0, l0⟩ := p
      have hd0 : d0 ∈ ((d0, l0) :: rest).map Prod.fst := by simp
      refine ⟨consistencyOf ((d0, l0) :: rest) d0, rfl,
        consistencyOf_total _ _, rfl, ?_, ?_, ?_⟩
      · rcases foldl_min_mem (((d0, l0) :: rest).map Prod.fst) d0 with h | h
        · show (((d0, l0) :: rest).map Prod.fst).foldl Nat.min d0
            ∈ ((d0, l0) :: rest).map Prod.fst
          rw [h]; exact hd0
        · exact h
      · rcases foldl_max_mem (((d0, l0) :: rest).map Prod.fst) d0 with h | h
        · show (((d0, l0) :: rest).map Prod.fst).foldl Nat.max d0
            ∈ ((d0, l0) :: rest).map Prod.fst
          rw [h]; exact hd0
        · exact h
      · intro x hx
        exact ⟨(foldl_min_le (((d0, l0) :: rest).map Prod.fst) d0).2 x hx,
          (le_foldl_max (((d0, l0) :: rest).map Prod.fst) d0).2 x hx⟩
  · decide

/-- Witness for `consistency_totals` on the two-entry scenario history. -/
theorem consistency_totals_witness :
    ∃ s, plot_consistency
          [(dateOrd 2024 3 1, ⟨"Anterior A", apply_template "Anterior A"⟩),
           (dateOrd 2024 3 3, ⟨"Rest", []⟩)]
        = some s
      ∧ s.workouts + s.rest + s.missed = s.total_days
      ∧ s.total_days = s.range_end - s.range_start + 1
      ∧ s.range_start ∈ ([(dateOrd 2024 3 1,
            (⟨"Anterior A", apply_template "Anterior A"⟩ : DayLog)),
          (dateOrd 2024 3 3, ⟨"Rest", []⟩)]).map Prod.fst
      ∧ s.range_end ∈ ([(dateOrd 2024 3 1,
            (⟨"Anterior A", apply_template "Anterior A"⟩ : DayLog)),
          (dateOrd 2024 3 3, ⟨"Rest", []⟩)]).map Prod.fst
      ∧ ∀ x ∈ ([(dateOrd 2024 3 1,
            (⟨"Anterior A", apply_template "Anterior A"⟩ : DayLog)),
          (dateOrd 2024 3 3, ⟨"Rest", []⟩)]).map Prod.fst,
          s.range_start ≤ x ∧ x ≤ s.range_end :=
  (consistency_totals
    [(dateOrd 2024 3 1, ⟨"Anterior A", apply_template "Anterior A"⟩),
     (dateOrd 2024 3 3, ⟨"Rest", []⟩)] (by decide)).1

/-- Claim C8: the Rest-day payload is created with an empty exercise
sequence, and instantiating a template yields exactly one `ExerciseEntry`
per exercise name of the template — so the output length equals the
template's name-list length, for each of the four fixed templates and
vacuously for unknown names — with defaults `sets = 3`, `reps = 10`,
`weight = 10.0` on every entry. -/
theorem rest_and_template_defaults :
    rest_day_log.typ = "Rest" ∧ rest_day_log.exercises = []
      ∧ ∀ name : String,
          (apply_template name).length = ((TEMPLATES.lookup name).getD []).length
            ∧ ∀ e ∈ apply_template name,
                e.sets = 3 ∧ e.reps = 10 ∧ e.weight = 10 := by
  refine ⟨rfl, rfl, fun name => ⟨List.length_map _ _, ?_⟩⟩
  intro e he
  rcases List.mem_map.mp he with ⟨n, _, rfl⟩
  exact ⟨rfl, rfl, rfl⟩

/-- Witness for `rest_and_template_defaults` at template "Anterior A" and
its first instantiated entry. -/
theorem rest_and_template_defaults_witness :
    (⟨"Incline Chest Press (DB)", 3, 10, 10⟩ : ExerciseEntry).sets = 3
      ∧ (⟨"Incline Chest Press (DB)", 3, 10, 10⟩ : ExerciseEntry).reps = 10
      ∧ (⟨"Incline Chest Press (DB)", 3, 10, 10⟩ : ExerciseEntry).weight = 10 :=
  (rest_and_template_defaults.2.2 "Anterior A").2
    ⟨"Incline Chest Press (DB)", 3, 10, 10⟩ (by decide)

set_option maxRecDepth 1000000 in
/-- Validation of the SHA-256 embedding: the FIPS 180-4 digest of the empty
message, and the digest of `"pw1"` as `hashlib.sha256(b"pw1").hexdigest()`
returns it. -/
theorem sha256hex_vectors :
    sha256hex [] = "e3b0c44298fc1c149afbf4c8996fb92427ae41e4649b934ca495991b7852b855"
      ∧ hash_password "pw1"
        = "c592df4a86933b92addc9842402ddf198c638ea9be58916ee6e3734e1e3152f8" := by
  constructor
  · decide
  · decide

set_option maxRecDepth 1000000 in
/-- Claim C5: from an empty Users sheet, `register_user "ali" "pw1"`
succeeds; a second `register_user "ali" "pw2"` is refused and leaves the
sheet unchanged, while the differently-cased `"Ali"` would be accepted
(the key match is case-sensitive exact string equality); afterwards
`authenticate "ali" "pw1"` is `true` and `authenticate "ali" "pw2"` is
`false` (with `hash_password` being genuine SHA-256 of the UTF-8 bytes);
in general `authenticate u p` is `true` iff `u` is a key of the users dict
and its stored hash equals `hash_password p`. -/
theorem register_authenticate_spec :
    (register_user "ali" "pw1" []).1 = true
      ∧ register_user "ali" "pw2" (register_user "ali" "pw1" []).2
          = (false, (register_user "ali" "pw1" []).2)
      ∧ (register_user "Ali" "pw2" (register_user "ali" "pw1" []).2).1 = true
      ∧ authenticate "ali" "pw1" (register_user "ali" "pw1" []).2 = true
      ∧ authenticate "ali" "pw2" (register_user "ali" "pw1" []).2 = false
      ∧ ∀ (rows : List (String × String)) (u p : String),
          authenticate u p rows = true
            ↔ ∃ stored, (get_all_users rows).lookup u = some stored
                ∧ stored = hash_password p := by
  refine ⟨by decide, by decide, by decide, by decide, by decide, ?_⟩
  intro rows u p
  unfold authenticate
  cases hl : (get_all_users rows).lookup u with
  | none => simp
  | some stored => simp [beq_iff_eq]

end GymTracker
